import Mathlib

/-!
Shallow embedding of `src/scripts/import_data.py` (class `SupplyChainImporter`):
the type-coercion layer (`clean_numeric`, `clean_int`), the pandas-style
deduplication used by `import_customers` / `import_products`
(`groupby(key).first()`, which takes the first NON-NULL value per column
within each group), and the three row passes `import_orders` /
`import_shipping` with their key maps and skip tallies.  The database sink
is modelled as an oracle: every insert attempt either raises (`err`) or
returns a generated integer key (`ok k`), exactly the two outcomes the
script distinguishes (`except` versus `cursor.fetchone()` on a
`RETURNING` insert).  Python floats are modelled as exact rationals
extended with ±inf and nan: overflow of a conversion beyond the double
range — and the `OverflowError` that `int()` then raises past the
coercion layer's `except (ValueError, TypeError)` — is modelled, while
mantissa rounding within the finite range is not (no stated property
depends on it).
-/

namespace SupplyChain

attribute [local semireducible] Rat.add Rat.sub Rat.mul Rat.inv

/-- A raw scalar cell value as pandas hands it to the script: the absence
marker (`NaN`/`None`), a string, an integer, or a floating point number
(modelled exactly as a rational). -/
inductive RawValue where
  | absent
  | str (s : String)
  | intV (n : Int)
  | ratV (q : ℚ)
deriving DecidableEq

/-- `pd.isna` on a scalar: true exactly on the absence marker. -/
def pdIsna : RawValue → Bool
  | .absent => true
  | _ => false

/-- The whitespace characters Python's `str.strip()` / `float()` remove. -/
def isPySpace (c : Char) : Bool :=
  c == ' ' || c == '\t' || c == '\n' || c == '\r' || c == '\x0b' || c == '\x0c'

/-- Strip leading and trailing Python whitespace from a character list. -/
def stripList (l : List Char) : List Char :=
  ((l.dropWhile isPySpace).reverse.dropWhile isPySpace).reverse

/-- Python `s.strip()`. -/
def pyStrip (s : String) : String := ⟨stripList s.data⟩

/-- Value of a list of decimal digit characters. -/
def natOfDigits (l : List Char) : Nat :=
  l.foldl (fun a c => a * 10 + (c.toNat - 48)) 0

/-- Exponent part of a float literal: optional sign then a nonempty digit
run. -/
def parseExpPart : List Char → Option Int
  | '+' :: cs =>
      if !cs.isEmpty && cs.all Char.isDigit then some ((natOfDigits cs : Int)) else none
  | '-' :: cs =>
      if !cs.isEmpty && cs.all Char.isDigit then some (-(natOfDigits cs : Int)) else none
  | cs =>
      if !cs.isEmpty && cs.all Char.isDigit then some ((natOfDigits cs : Int)) else none

/-- Mantissa of a float literal: `digits [. digits]` or `. digits`; returns
its value and the unconsumed tail. -/
def parseMantissa (cs : List Char) : Option (ℚ × List Char) :=
  let ip := cs.takeWhile Char.isDigit
  let r1 := cs.drop ip.length
  match r1 with
  | '.' :: t =>
      let fp := t.takeWhile Char.isDigit
      let r2 := t.drop fp.length
      if ip.isEmpty && fp.isEmpty then none
      else some ((natOfDigits ip : ℚ) + (natOfDigits fp : ℚ) / (((10 : Nat) ^ fp.length : Nat) : ℚ), r2)
  | _ =>
      if ip.isEmpty then none else some ((natOfDigits ip : ℚ), r1)

/-- `10 ^ e` for a signed exponent, computed through `Nat` powers (the
kernel reduces `Nat` powers on literals directly, avoiding deep unary
recursion). -/
def pow10 (e : Int) : ℚ :=
  if 0 ≤ e then (((10 : Nat) ^ e.toNat : Nat) : ℚ)
  else 1 / (((10 : Nat) ^ (-e).toNat : Nat) : ℚ)

/-- Mantissa followed by an optional exponent, consuming the whole input. -/
def parseAfterSign (cs : List Char) : Option ℚ := do
  let (m, rest) ← parseMantissa cs
  match rest with
  | [] => some m
  | 'e' :: t => do let e ← parseExpPart t; some (m * pow10 e)
  | 'E' :: t => do let e ← parseExpPart t; some (m * pow10 e)
  | _ => none

/-- An IEEE-754 double as Python sees it: a finite value (held exactly),
one of the two infinities, or `nan`. -/
inductive PyFloatVal where
  | finite (q : ℚ)
  | inf
  | negInf
  | nan
deriving DecidableEq

/-- Outcome of one Python conversion call: a returned value, a raised
`ValueError`/`TypeError` (the two exception types `clean_numeric` and
`clean_int` catch), or a raised `OverflowError` (which their `except`
clause does NOT catch). -/
inductive PyResult (α : Type) where
  | val (a : α)
  | valueError
  | overflowError
deriving DecidableEq

/-- Smallest integer magnitude that rounds to ±inf under the double
format's round-to-nearest-even: the midpoint above the largest finite
double `2^1024 - 2^971`. -/
def intOverflowBound : Int := (((2 : Nat) ^ 1024 - (2 : Nat) ^ 970 : Nat) : Int)

/-- The same bound as a rational, for decimal literals. -/
def doubleOverflowBound : ℚ := ((intOverflowBound : ℚ))

/-- Classify an exact decimal value against the double range: magnitudes
at or beyond the bound become ±inf.  (Rounding of the mantissa WITHIN
the finite range is not modelled — no stated property depends on which
nearby finite double a literal denotes — but overflow to infinity is,
because `int()` of an infinite value raises.) -/
def roundToDouble (q : ℚ) : PyFloatVal :=
  if doubleOverflowBound ≤ q then .inf
  else if q ≤ -doubleOverflowBound then .negInf
  else .finite q

/-- Case-insensitive match for the special float literals that Python's
`float()` accepts after the optional sign. -/
def parseSpecialFloat (cs : List Char) : Option PyFloatVal :=
  let low := cs.map Char.toLower
  if low = ['i', 'n', 'f'] || low = ['i', 'n', 'f', 'i', 'n', 'i', 't', 'y'] then some .inf
  else if low = ['n', 'a', 'n'] then some .nan
  else none

/-- Python `float(s)` on a string: surrounding whitespace stripped,
optional sign, then either a special literal (`inf`/`infinity`/`nan`)
or a decimal mantissa with optional exponent, literals beyond the
double range overflowing to ±inf (`float("1e400")` is `inf`, without an
exception); `none` when the conversion raises `ValueError`.
(Underscore digit separators are not modelled; no claim involves
them.) -/
def pyFloatOfString (s : String) : Option PyFloatVal :=
  let body : List Char → Bool → Option PyFloatVal := fun cs neg =>
    match parseSpecialFloat cs with
    | some .inf => some (if neg then .negInf else .inf)
    | some v => some v
    | none =>
        match parseAfterSign cs with
        | some q => some (roundToDouble (if neg then -q else q))
        | none => none
  match stripList s.data with
  | '+' :: cs => body cs false
  | '-' :: cs => body cs true
  | cs => body cs false

/-- Python `float(value)` on a raw scalar.  A non-convertible string
raises `ValueError` (caught by the coercion layer); an integer beyond
the double range raises `OverflowError` (NOT caught).  A float cell is
already a double, so the embedding's `ratV` carries a finite value and
`absent` is the float `nan`. -/
def pyFloat : RawValue → PyResult PyFloatVal
  | .absent => .val .nan
  | .str s =>
      match pyFloatOfString s with
      | some v => .val v
      | none => .valueError
  | .intV n =>
      if intOverflowBound ≤ n ∨ n ≤ -intOverflowBound then .overflowError
      else .val (.finite ((n : ℚ)))
  | .ratV q => .val (.finite q)

/-- Python `int(q)` on a finite float: truncation toward zero.
`q.num.tdiv q.den` is T-division on a reduced fraction with positive
denominator. -/
def pyTrunc (q : ℚ) : Int := q.num.tdiv ((q.den : Int))

/-- Python `int(f)` on a float: truncation toward zero on finite values;
`int(±inf)` raises `OverflowError`, `int(nan)` raises `ValueError`. -/
def pyIntOfPyFloat : PyFloatVal → PyResult Int
  | .finite q => .val (pyTrunc q)
  | .inf => .overflowError
  | .negInf => .overflowError
  | .nan => .valueError

/-- Python `int(s)` on a string: whitespace stripped, optional sign, then a
nonempty digit run only (so `int("5.0")` raises). -/
def parseIntString (s : String) : Option Int :=
  match stripList s.data with
  | '+' :: cs =>
      if !cs.isEmpty && cs.all Char.isDigit then some ((natOfDigits cs : Int)) else none
  | '-' :: cs =>
      if !cs.isEmpty && cs.all Char.isDigit then some (-(natOfDigits cs : Int)) else none
  | cs =>
      if !cs.isEmpty && cs.all Char.isDigit then some ((natOfDigits cs : Int)) else none

/-- Python `int(value)` on a raw scalar; `none` when it raises
(`int(nan)` and `int` of a non-integer string raise). -/
def pyIntCoerce : RawValue → Option Int
  | .absent => none
  | .str s => parseIntString s
  | .intV n => some n
  | .ratV q => some (pyTrunc q)

/-- Python `str(value)`: the absence marker prints as `"nan"` (this is what
`astype(str)` and a bare `str(...)` produce for `NaN`).  The rendering of
a float is a modelling choice (`num/den`); no claim evaluates it. -/
def pyStr : RawValue → String
  | .absent => "nan"
  | .str s => s
  | .intV n => toString n
  | .ratV q => toString q.num ++ "/" ++ toString q.den

/-- `SupplyChainImporter.clean_numeric` (import_data.py lines 68-74):
`None if pd.isna(value) else float(value)` under
`except (ValueError, TypeError)` — those two exception types degrade to
`None`, but an `OverflowError` from `float()` escapes the function. -/
def clean_numeric (v : RawValue) : PyResult (Option PyFloatVal) :=
  if pdIsna v then .val none
  else
    match pyFloat v with
    | .val f => .val (some f)
    | .valueError => .val none
    | .overflowError => .overflowError

/-- `SupplyChainImporter.clean_int` (import_data.py lines 76-82):
`None if pd.isna(value) else int(float(value))` under
`except (ValueError, TypeError)`: a failed parse or `int(nan)` degrades
to `None`, but the `OverflowError` from `int()` of an infinite float
(or from `float()` of an oversized integer) escapes the function. -/
def clean_int (v : RawValue) : PyResult (Option Int) :=
  if pdIsna v then .val none
  else
    match pyFloat v with
    | .val f =>
        match pyIntOfPyFloat f with
        | .val n => .val (some n)
        | .valueError => .val none
        | .overflowError => .overflowError
    | .valueError => .val none
    | .overflowError => .overflowError

/-- Value-level projection of `clean_numeric` used for payload cells
(geocoordinates, prices, metrics): the finite value when one is
returned, absence otherwise.  No stated property evaluates these
cells; a payload coercion that raises is swallowed by the surrounding
per-row `except Exception` in the customer loop and crashes the phase
in the order/shipping loops — paths the loop models do not propagate, a
disclosed simplification none of the claims depend on. -/
def cleanNumericVal (v : RawValue) : Option ℚ :=
  match clean_numeric v with
  | .val (some (.finite q)) => some q
  | _ => none

/-- Value-level projection of `clean_int`, likewise payload-only. -/
def cleanIntVal (v : RawValue) : Option Int :=
  match clean_int v with
  | .val o => o
  | _ => none

/-! ## Raw rows

One denormalized CSV record.  Every column the script reads is a field;
the dataset schema contains all of them, so column presence is fixed and
only value absence (`NaN`) varies.  Fields default to the absence marker
so concrete rows can be written by listing the populated columns. -/

/-- A raw source row (`self.df` row) with the columns the script reads. -/
structure RawRow where
  customerId : RawValue := .absent
  customerEmail : RawValue := .absent
  customerFname : RawValue := .absent
  customerLname : RawValue := .absent
  customerSegment : RawValue := .absent
  customerCity : RawValue := .absent
  customerState : RawValue := .absent
  customerCountry : RawValue := .absent
  customerZipcode : RawValue := .absent
  customerStreet : RawValue := .absent
  latitude : RawValue := .absent
  longitude : RawValue := .absent
  productName : RawValue := .absent
  productCardId : RawValue := .absent
  categoryName : RawValue := .absent
  departmentName : RawValue := .absent
  productPrice : RawValue := .absent
  productDescription : RawValue := .absent
  productImage : RawValue := .absent
  productStatus : RawValue := .absent
  orderItemId : RawValue := .absent
  orderDate : RawValue := .absent
  orderQuantity : RawValue := .absent
  salesPerCustomer : RawValue := .absent
  orderItemDiscount : RawValue := .absent
  orderProfit : RawValue := .absent
  orderStatus : RawValue := .absent
  market : RawValue := .absent
  orderRegion : RawValue := .absent
  orderCountry : RawValue := .absent
  orderCity : RawValue := .absent
  orderState : RawValue := .absent
  orderZipcode : RawValue := .absent
  shippingDate : RawValue := .absent
  shippingMode : RawValue := .absent
  daysShippingReal : RawValue := .absent
  daysShipmentScheduled : RawValue := .absent
  deliveryStatus : RawValue := .absent
  lateDeliveryRisk : RawValue := .absent
deriving DecidableEq

/-- `str(row.get(col, '')) if pd.notna(row.get(col)) else None`, the
pattern the script uses for every nullable text column. -/
def strOrNone (v : RawValue) : Option String :=
  if pdIsna v then none else some (pyStr v)

/-! ## Python dictionaries

The key maps are Python `dict`s: insertion adds a new entry at the end or
overwrites the value of an existing key in place; `get` returns the first
(unique) match or `None`. -/

/-- `d.get(k)`. -/
def dictGet {α β : Type} [DecidableEq α] : List (α × β) → α → Option β
  | [], _ => none
  | (k', v) :: rest, k => if k' = k then some v else dictGet rest k

/-- `d[k] = v`. -/
def dictInsert {α β : Type} [DecidableEq α] : List (α × β) → α → β → List (α × β)
  | [], k, v => [(k, v)]
  | (k', v') :: rest, k, v =>
      if k' = k then (k, v) :: rest else (k', v') :: dictInsert rest k v

theorem dictGet_insert_self {α β : Type} [DecidableEq α]
    (m : List (α × β)) (k : α) (v : β) : dictGet (dictInsert m k v) k = some v := by
  induction m with
  | nil => simp [dictInsert, dictGet]
  | cons p rest ih =>
    obtain ⟨k', v'⟩ := p
    by_cases h : k' = k <;> simp [dictInsert, dictGet, h, ih]

theorem dictGet_insert_ne {α β : Type} [DecidableEq α]
    (m : List (α × β)) (k k' : α) (v : β) (h : k' ≠ k) :
    dictGet (dictInsert m k v) k' = dictGet m k' := by
  have hne : ¬ (k = k') := fun h' => h h'.symm
  induction m with
  | nil =>
    simp only [dictInsert, dictGet]
    rw [if_neg hne]
  | cons p rest ih =>
    obtain ⟨k₀, v₀⟩ := p
    simp only [dictInsert]
    by_cases h₀ : k₀ = k
    · subst h₀
      rw [if_pos rfl]
      simp only [dictGet]
      rw [if_neg hne, if_neg hne]
    · rw [if_neg h₀]
      simp only [dictGet]
      by_cases h₁ : k₀ = k'
      · rw [if_pos h₁, if_pos h₁]
      · rw [if_neg h₁, if_neg h₁, ih]

theorem mem_dictInsert {α β : Type} [DecidableEq α]
    (m : List (α × β)) (k : α) (v : β) :
    ∀ p ∈ dictInsert m k v, p ∈ m ∨ p = (k, v) := by
  induction m with
  | nil =>
    intro p hp
    simp only [dictInsert, List.mem_singleton] at hp
    exact Or.inr hp
  | cons q rest ih =>
    obtain ⟨k₀, v₀⟩ := q
    intro p hp
    simp only [dictInsert] at hp
    by_cases h₀ : k₀ = k
    · rw [if_pos h₀] at hp
      rcases List.mem_cons.mp hp with h | h
      · exact Or.inr h
      · exact Or.inl (List.mem_cons_of_mem _ h)
    · rw [if_neg h₀] at hp
      rcases List.mem_cons.mp hp with h | h
      · exact Or.inl (by rw [h]; exact List.mem_cons_self _ _)
      · rcases ih p h with h' | h'
        · exact Or.inl (List.mem_cons_of_mem _ h')
        · exact Or.inr h'

theorem dictGet_eq_none {α β : Type} [DecidableEq α]
    (m : List (α × β)) (k : α) (h : ∀ p ∈ m, p.1 ≠ k) : dictGet m k = none := by
  induction m with
  | nil => rfl
  | cons p rest ih =>
    obtain ⟨k₀, v₀⟩ := p
    have hk : k₀ ≠ k := h (k₀, v₀) (List.mem_cons_self _ _)
    simp only [dictGet, if_neg hk]
    exact ih fun q hq => h q (List.mem_cons_of_mem _ hq)

theorem dictInsert_length_fresh {α β : Type} [DecidableEq α]
    (m : List (α × β)) (k : α) (v : β) (h : ∀ p ∈ m, p.1 ≠ k) :
    (dictInsert m k v).length = m.length + 1 := by
  induction m with
  | nil => rfl
  | cons p rest ih =>
    obtain ⟨k₀, v₀⟩ := p
    have hk : k₀ ≠ k := h (k₀, v₀) (List.mem_cons_self _ _)
    simp only [dictInsert, if_neg hk, List.length_cons]
    rw [ih fun q hq => h q (List.mem_cons_of_mem _ hq)]

theorem dictGet_mem {α β : Type} [DecidableEq α]
    (m : List (α × β)) (k : α) (v : β) : dictGet m k = some v → (k, v) ∈ m := by
  induction m with
  | nil => intro h; simp [dictGet] at h
  | cons p rest ih =>
    obtain ⟨k₀, v₀⟩ := p
    intro h
    simp only [dictGet] at h
    by_cases h₀ : k₀ = k
    · rw [if_pos h₀] at h
      injection h with hv
      rw [← h₀, hv]
      exact List.mem_cons_self _ _
    · rw [if_neg h₀] at h
      exact List.mem_cons_of_mem _ (ih h)

/-! ## The sink

Every insert attempt either raises (caught by the per-row `except`) or
returns the generated key of the new row (`cursor.fetchone()` on a
`RETURNING` insert, a nonempty — hence truthy — tuple). -/

/-- Outcome of one `cursor.execute(insert_query, ...)` call. -/
inductive InsertOutcome where
  | err
  | ok (key : Int)
deriving DecidableEq

/-! ## Customer loader (`import_customers`, import_data.py lines 84-152)

`customers.groupby('Customer Id', as_index=False).first()`: one canonical
row per distinct raw `Customer Id` value, where `first()` takes, for each
column separately, the first NON-NULL value within the group (NaN when the
whole column of the group is NaN).  Groups are modelled in first-occurrence
order; pandas emits them sorted by key, but no stated property depends on
the order of groups. -/

/-- First non-absent value of a column within a group (pandas
`GroupBy.first` on one column), absent when every value is absent. -/
def firstNonAbsent : List RawValue → RawValue
  | [] => .absent
  | v :: vs => if pdIsna v then firstNonAbsent vs else v

/-- Order-preserving distinct values (`seen` accumulates values already
emitted). -/
def firstOccAux {α : Type} [DecidableEq α] (seen : List α) : List α → List α
  | [] => []
  | v :: vs => if v ∈ seen then firstOccAux seen vs else v :: firstOccAux (v :: seen) vs

/-- Distinct `Customer Id` values (the groupby keys) of the rows with a
non-absent `Customer Id`, in first-occurrence order. -/
def customerKeys (rows : List RawRow) : List RawValue :=
  firstOccAux [] ((rows.filter (fun r => !pdIsna r.customerId)).map (·.customerId))

/-- The group of rows carrying `Customer Id` value `k`, in source order. -/
def customerGroup (rows : List RawRow) (k : RawValue) : List RawRow :=
  rows.filter (fun r => !pdIsna r.customerId && decide (r.customerId = k))

/-- A canonical deduplicated customer row: the projection of
`customers_unique` to the customer columns. -/
structure CustomerCanon where
  customerId : RawValue
  customerEmail : RawValue
  customerFname : RawValue
  customerLname : RawValue
  customerSegment : RawValue
  customerCity : RawValue
  customerState : RawValue
  customerCountry : RawValue
  customerZipcode : RawValue
  customerStreet : RawValue
  latitude : RawValue
  longitude : RawValue
deriving DecidableEq

/-- `groupby('Customer Id').first()` for one group: key column holds the
group key, every other column its first non-null value in the group. -/
def canonOf (k : RawValue) (g : List RawRow) : CustomerCanon where
  customerId := k
  customerEmail := firstNonAbsent (g.map (·.customerEmail))
  customerFname := firstNonAbsent (g.map (·.customerFname))
  customerLname := firstNonAbsent (g.map (·.customerLname))
  customerSegment := firstNonAbsent (g.map (·.customerSegment))
  customerCity := firstNonAbsent (g.map (·.customerCity))
  customerState := firstNonAbsent (g.map (·.customerState))
  customerCountry := firstNonAbsent (g.map (·.customerCountry))
  customerZipcode := firstNonAbsent (g.map (·.customerZipcode))
  customerStreet := firstNonAbsent (g.map (·.customerStreet))
  latitude := firstNonAbsent (g.map (·.latitude))
  longitude := firstNonAbsent (g.map (·.longitude))

/-- `customers_unique` (import_data.py lines 100-104): filter to rows
whose `Customer Id` is non-absent, then one canonical row per key. -/
def canonicalCustomers (rows : List RawRow) : List CustomerCanon :=
  (customerKeys rows).map (fun k => canonOf k (customerGroup rows k))

/-- The projection of one raw row to the customer columns: what the spec
claims a canonical customer is — the first-encountered row of the group,
taken whole. -/
def specCanonOfRow (r : RawRow) : CustomerCanon where
  customerId := r.customerId
  customerEmail := r.customerEmail
  customerFname := r.customerFname
  customerLname := r.customerLname
  customerSegment := r.customerSegment
  customerCity := r.customerCity
  customerState := r.customerState
  customerCountry := r.customerCountry
  customerZipcode := r.customerZipcode
  customerStreet := r.customerStreet
  latitude := r.latitude
  longitude := r.longitude

/-- One persisted customers-table row (the tuple passed to the insert at
import_data.py lines 124-136).  `email`/`fname`/`lname` go through a bare
`str(...)` — an absent value prints as `"nan"`; the placeholder default of
`row.get('Customer Email', f'customer_{id}@placeholder.com')` applies only
when the email column is missing from the CSV entirely, which the fixed
dataset schema rules out. -/
structure CustomerRecord where
  email : String
  fname : String
  lname : String
  segment : Option String
  city : Option String
  state : Option String
  country : Option String
  zipcode : Option String
  street : Option String
  latitude : Option ℚ
  longitude : Option ℚ
deriving DecidableEq

/-- Build the persisted record for one canonical customer row. -/
def buildCustomerRecord (c : CustomerCanon) : CustomerRecord where
  email := pyStr c.customerEmail
  fname := pyStr c.customerFname
  lname := pyStr c.customerLname
  segment := strOrNone c.customerSegment
  city := strOrNone c.customerCity
  state := strOrNone c.customerState
  country := strOrNone c.customerCountry
  zipcode := strOrNone c.customerZipcode
  street := strOrNone c.customerStreet
  latitude := cleanNumericVal c.latitude
  longitude := cleanNumericVal c.longitude

/-- Running state of the customer loop: the key map being built, the
`imported` counter, and the rows inserted so far (tagged with their
source id). -/
structure CustomerState where
  customer_map : List (Int × Int)
  imported : Nat
  records : List (Int × CustomerRecord)
deriving DecidableEq

/-- One iteration of the customer loop (import_data.py lines 119-148):
`int(row['Customer Id'])` raising, or the insert raising, silently skips
the row (`except Exception: continue`); on success the key map entry,
the counter and the persisted record advance together.  The insert oracle
is indexed by the position of the canonical row in the iteration. -/
def customerStep (insC : Nat → InsertOutcome) (pos : Nat) (st : CustomerState)
    (c : CustomerCanon) : CustomerState :=
  match pyIntCoerce c.customerId with
  | none => st
  | some sid =>
      match insC pos with
      | .err => st
      | .ok k =>
          { customer_map := dictInsert st.customer_map sid k
            imported := st.imported + 1
            records := st.records ++ [(sid, buildCustomerRecord c)] }

/-- The customer loop over the canonical rows. -/
def customersGo (insC : Nat → InsertOutcome) : Nat → CustomerState →
    List CustomerCanon → CustomerState
  | _, st, [] => st
  | pos, st, c :: rest => customersGo insC (pos + 1) (customerStep insC pos st c) rest

/-- `import_customers` (import_data.py lines 84-152): dedup then the
insert loop, returning the key map, the `imported` counter and the
persisted rows. -/
def import_customers (rows : List RawRow) (insC : Nat → InsertOutcome) : CustomerState :=
  customersGo insC 0 ⟨[], 0, []⟩ (canonicalCustomers rows)

/-! ## Product loader (`import_products`, import_data.py lines 154-215)

`products['Product Name'] = products['Product Name'].astype(str).str.strip()`
turns NaN into the literal string `"nan"` and strips whitespace; the filter
then drops `"nan"` and `""` (the `notna()` conjunct is vacuous after
`astype(str)`).  The loop key `str(row['Product Name']).strip()` equals the
group key, already stripped.  Only the key map and counter matter to any
stated property; the payload columns feed the insert tuple only. -/

/-- The transformed `Product Name` cell of a row: `astype(str).str.strip()`. -/
def productNameStr (r : RawRow) : String := pyStrip (pyStr r.productName)

/-- The groupby keys of `products_unique`: distinct transformed names,
excluding `"nan"` and `""`, in first-occurrence order. -/
def productNames (rows : List RawRow) : List String :=
  firstOccAux []
    ((rows.map productNameStr).filter (fun n => !(n = "nan" : Bool) && !(n = "" : Bool)))

/-- Running state of the product loop. -/
structure ProductState where
  product_map : List (String × Int)
  imported : Nat
deriving DecidableEq

/-- One iteration of the product loop (import_data.py lines 190-211):
an insert that raises is silently skipped; on success the map entry and
the counter advance together. -/
def productStep (insP : Nat → InsertOutcome) (pos : Nat) (st : ProductState)
    (name : String) : ProductState :=
  match insP pos with
  | .err => st
  | .ok k => { product_map := dictInsert st.product_map name k, imported := st.imported + 1 }

/-- The product loop over the canonical names. -/
def productsGo (insP : Nat → InsertOutcome) : Nat → ProductState → List String → ProductState
  | _, st, [] => st
  | pos, st, n :: rest => productsGo insP (pos + 1) (productStep insP pos st n) rest

/-- `import_products` (import_data.py lines 154-215). -/
def import_products (rows : List RawRow) (insP : Nat → InsertOutcome) : ProductState :=
  productsGo insP 0 ⟨[], 0⟩ (productNames rows)

/-! ## Order loader (`import_orders`, import_data.py lines 217-294)

A full pass over the raw rows.  `int(row['Customer Id'])` at line 240 sits
OUTSIDE the try block: a non-absent value that `int()` cannot convert
raises out of the whole phase (modelled as `Except.error`).  Lookup
results are tested with `if not customer_id:` / `if not product_id:` —
Python truthiness, so a generated key `0` counts as a failed lookup. -/

/-- `int(row['Customer Id']) if pd.notna(row.get('Customer Id')) else None`
(import_data.py line 240); `Except.error` when `int()` raises. -/
def sourceCustomerId (row : RawRow) : Except Unit (Option Int) :=
  if pdIsna row.customerId then .ok none
  else
    match pyIntCoerce row.customerId with
    | some n => .ok (some n)
    | none => .error ()

/-- `str(row.get('Product Name', '')).strip() if pd.notna(...) else None`
(import_data.py line 241). -/
def orderProductName (row : RawRow) : Option String :=
  if pdIsna row.productName then none else some (pyStrip (pyStr row.productName))

/-- `d.get(k)` where `k` itself may be `None` (no dict key is `None`, so
the lookup then misses). -/
def optGet {α β : Type} [DecidableEq α] (m : List (α × β)) : Option α → Option β
  | none => none
  | some k => dictGet m k

/-- Python `not x` on an optional integer: true on `None` and on `0`. -/
def isFalsy : Option Int → Bool
  | none => true
  | some k => k == 0

/-- What one order row leads to. -/
inductive RowOutcome where
  | noCustomer
  | noProduct
  | insertError
  | inserted (key : Int)
deriving DecidableEq

/-- Classification of one order row (import_data.py lines 240-284):
customer truthiness is tested first, then product truthiness, then the
insert is attempted; `psycopg2.Error` is tallied as `error`. -/
def orderRowOutcome (cmap : List (Int × Int)) (pmap : List (String × Int))
    (ins : InsertOutcome) (row : RawRow) : Except Unit RowOutcome :=
  match sourceCustomerId row with
  | .error e => .error e
  | .ok sid =>
      let customer_id := optGet cmap sid
      let product_id := optGet pmap (orderProductName row)
      if isFalsy customer_id then .ok .noCustomer
      else if isFalsy product_id then .ok .noProduct
      else
        match ins with
        | .err => .ok .insertError
        | .ok k => .ok (.inserted k)

/-- Running state of the order loop: the key map from source row position
to generated order key, the `processed` counter, and the three skip
tallies. -/
structure OrderState where
  order_map : List (Nat × Int)
  processed : Nat
  skipped_no_customer : Nat
  skipped_no_product : Nat
  skipped_error : Nat
deriving DecidableEq

/-- Apply one row's outcome to the loop state (`idx` is the row's
position in the source). -/
def applyOutcome (st : OrderState) (idx : Nat) : RowOutcome → OrderState
  | .noCustomer => { st with skipped_no_customer := st.skipped_no_customer + 1 }
  | .noProduct => { st with skipped_no_product := st.skipped_no_product + 1 }
  | .insertError => { st with skipped_error := st.skipped_error + 1 }
  | .inserted k =>
      { st with order_map := dictInsert st.order_map idx k, processed := st.processed + 1 }

/-- The order loop; the insert oracle is indexed by source row position. -/
def ordersGo (cmap : List (Int × Int)) (pmap : List (String × Int))
    (ins : Nat → InsertOutcome) : Nat → OrderState → List RawRow → Except Unit OrderState
  | _, st, [] => .ok st
  | idx, st, row :: rest =>
      match orderRowOutcome cmap pmap (ins idx) row with
      | .error e => .error e
      | .ok oc => ordersGo cmap pmap ins (idx + 1) (applyOutcome st idx oc) rest

/-- `import_orders` (import_data.py lines 217-294). -/
def import_orders (rows : List RawRow) (cmap : List (Int × Int))
    (pmap : List (String × Int)) (ins : Nat → InsertOutcome) : Except Unit OrderState :=
  ordersGo cmap pmap ins 0 ⟨[], 0, 0, 0, 0⟩ rows

/-! ## Shipping loader (`import_shipping`, import_data.py lines 296-342)

A second full pass over the same raw rows.  `order_map.get(idx)` is tested
with `if not order_id:` (truthiness again); a missing or zero order key
increments the single skip counter, as does an insert that raises. -/

/-- One persisted shipping_details row (the tuple at import_data.py
lines 319-327). -/
structure ShippingRecord where
  order_id : Int
  shipping_date : Option String
  shipping_mode : Option String
  days_real : Option Int
  days_sched : Option Int
  delivery_status : Option String
  late_risk : Option Int
deriving DecidableEq

/-- Build the shipping record for a row, referencing order key `k`. -/
def mkShippingRecord (k : Int) (row : RawRow) : ShippingRecord where
  order_id := k
  shipping_date := strOrNone row.shippingDate
  shipping_mode := strOrNone row.shippingMode
  days_real := cleanIntVal row.daysShippingReal
  days_sched := cleanIntVal row.daysShipmentScheduled
  delivery_status := strOrNone row.deliveryStatus
  late_risk := cleanIntVal row.lateDeliveryRisk

/-- Running state of the shipping loop. -/
structure ShippingState where
  records : List ShippingRecord
  processed : Nat
  skipped : Nat
deriving DecidableEq

/-- One iteration of the shipping loop (import_data.py lines 312-337):
skip when the order key is missing or falsy, skip when the insert raises
(`insS idx = true`), otherwise append the record. -/
def shippingStep (omap : List (Nat × Int)) (insS : Nat → Bool) (idx : Nat)
    (st : ShippingState) (row : RawRow) : ShippingState :=
  match dictGet omap idx with
  | none => { st with skipped := st.skipped + 1 }
  | some k =>
      if k = 0 then { st with skipped := st.skipped + 1 }
      else if insS idx then { st with skipped := st.skipped + 1 }
      else { st with records := st.records ++ [mkShippingRecord k row]
                     processed := st.processed + 1 }

/-- The shipping loop. -/
def shippingGo (omap : List (Nat × Int)) (insS : Nat → Bool) :
    Nat → ShippingState → List RawRow → ShippingState
  | _, st, [] => st
  | idx, st, row :: rest => shippingGo omap insS (idx + 1) (shippingStep omap insS idx st row) rest

/-- `import_shipping` (import_data.py lines 296-342). -/
def import_shipping (rows : List RawRow) (omap : List (Nat × Int))
    (insS : Nat → Bool) : ShippingState :=
  shippingGo omap insS 0 ⟨[], 0, 0⟩ rows

/-- Number of source positions in `[idx, idx+n)` the shipping pass skips:
those whose order key is missing or falsy, or whose insert raises. -/
def shipSkipCount (omap : List (Nat × Int)) (insS : Nat → Bool) : Nat → Nat → Nat
  | _, 0 => 0
  | idx, n + 1 =>
      (match dictGet omap idx with
       | none => 1
       | some k => if k = 0 then 1 else if insS idx then 1 else 0)
        + shipSkipCount omap insS (idx + 1) n

/-! ## Invariants of the order loop -/

theorem applyOutcome_map_cases (st : OrderState) (idx : Nat) (oc : RowOutcome) :
    (applyOutcome st idx oc).order_map = st.order_map ∨
      ∃ k, oc = .inserted k ∧
        (applyOutcome st idx oc).order_map = dictInsert st.order_map idx k := by
  cases oc with
  | inserted k => exact Or.inr ⟨k, rfl, rfl⟩
  | noCustomer => exact Or.inl rfl
  | noProduct => exact Or.inl rfl
  | insertError => exact Or.inl rfl

/-- Entries already in the map at positions below the loop index are
never touched again. -/
theorem ordersGo_preserve_lower (cmap : List (Int × Int)) (pmap : List (String × Int))
    (ins : Nat → InsertOutcome) :
    ∀ (rows : List RawRow) (idx : Nat) (st st' : OrderState),
      ordersGo cmap pmap ins idx st rows = .ok st' →
      ∀ j < idx, dictGet st'.order_map j = dictGet st.order_map j := by
  intro rows
  induction rows with
  | nil =>
    intro idx st st' h j _
    simp only [ordersGo] at h
    cases h
    rfl
  | cons row rest ih =>
    intro idx st st' h j hj
    simp only [ordersGo] at h
    cases h₀ : orderRowOutcome cmap pmap (ins idx) row with
    | error e => rw [h₀] at h; cases h
    | ok oc =>
      rw [h₀] at h
      have hrec := ih (idx + 1) _ st' h j (Nat.lt_succ_of_lt hj)
      rw [hrec]
      rcases applyOutcome_map_cases st idx oc with hm | ⟨k, _, hm⟩
      · rw [hm]
      · rw [hm, dictGet_insert_ne _ _ _ _ (Nat.ne_of_lt hj)]

/-- Every key in the final map lies below `idx + rows.length` when every
key already present lies below `idx`. -/
theorem ordersGo_key_bound (cmap : List (Int × Int)) (pmap : List (String × Int))
    (ins : Nat → InsertOutcome) :
    ∀ (rows : List RawRow) (idx : Nat) (st st' : OrderState),
      ordersGo cmap pmap ins idx st rows = .ok st' →
      (∀ p ∈ st.order_map, p.1 < idx) →
      ∀ p ∈ st'.order_map, p.1 < idx + rows.length := by
  intro rows
  induction rows with
  | nil =>
    intro idx st st' h hinv p hp
    simp only [ordersGo] at h
    cases h
    simpa using hinv p hp
  | cons row rest ih =>
    intro idx st st' h hinv p hp
    simp only [ordersGo] at h
    cases h₀ : orderRowOutcome cmap pmap (ins idx) row with
    | error e => rw [h₀] at h; cases h
    | ok oc =>
      rw [h₀] at h
      have hinv' : ∀ q ∈ (applyOutcome st idx oc).order_map, q.1 < idx + 1 := by
        intro q hq
        rcases applyOutcome_map_cases st idx oc with hm | ⟨k, _, hm⟩
        · rw [hm] at hq
          exact Nat.lt_succ_of_lt (hinv q hq)
        · rw [hm] at hq
          rcases mem_dictInsert _ _ _ q hq with hq' | hq'
          · exact Nat.lt_succ_of_lt (hinv q hq')
          · rw [hq']
            exact Nat.lt_succ_self idx
      have := ih (idx + 1) _ st' h hinv' p hp
      simp only [List.length_cons]
      omega

/-- What the final map holds at each position processed by the loop. -/
theorem ordersGo_get_at (cmap : List (Int × Int)) (pmap : List (String × Int))
    (ins : Nat → InsertOutcome) :
    ∀ (rows : List RawRow) (idx : Nat) (st st' : OrderState),
      ordersGo cmap pmap ins idx st rows = .ok st' →
      (∀ p ∈ st.order_map, p.1 < idx) →
      ∀ i (hi : i < rows.length),
        dictGet st'.order_map (idx + i) =
          (match orderRowOutcome cmap pmap (ins (idx + i)) (rows.get ⟨i, hi⟩) with
           | .ok (.inserted k) => some k
           | _ => none) := by
  intro rows
  induction rows with
  | nil =>
    intro idx st st' _ _ i hi
    exact absurd hi (Nat.not_lt_zero i)
  | cons row rest ih =>
    intro idx st st' h hinv i hi
    simp only [ordersGo] at h
    cases h₀ : orderRowOutcome cmap pmap (ins idx) row with
    | error e => rw [h₀] at h; cases h
    | ok oc =>
      rw [h₀] at h
      cases i with
      | zero =>
        have hpres := ordersGo_preserve_lower cmap pmap ins rest (idx + 1) _ st' h idx
          (Nat.lt_succ_self idx)
        have hnone : dictGet st.order_map idx = none :=
          dictGet_eq_none _ _ fun p hp => Nat.ne_of_lt (hinv p hp)
        simp only [Nat.add_zero, List.get] at h₀ ⊢
        rw [hpres, h₀]
        cases oc with
        | inserted k => exact dictGet_insert_self st.order_map idx k
        | noCustomer => exact hnone
        | noProduct => exact hnone
        | insertError => exact hnone
      | succ i' =>
        have hinv' : ∀ q ∈ (applyOutcome st idx oc).order_map, q.1 < idx + 1 := by
          intro q hq
          rcases applyOutcome_map_cases st idx oc with hm | ⟨k, _, hm⟩
          · rw [hm] at hq
            exact Nat.lt_succ_of_lt (hinv q hq)
          · rw [hm] at hq
            rcases mem_dictInsert _ _ _ q hq with hq' | hq'
            · exact Nat.lt_succ_of_lt (hinv q hq')
            · rw [hq']
              exact Nat.lt_succ_self idx
        have hi' : i' < rest.length := Nat.lt_of_succ_lt_succ hi
        have := ih (idx + 1) _ st' h hinv' i' hi'
        have harith : idx + (i' + 1) = (idx + 1) + i' := by omega
        rw [harith]
        rw [this]
        rfl

/-- Each processed row lands in exactly one of the four buckets. -/
theorem ordersGo_sum (cmap : List (Int × Int)) (pmap : List (String × Int))
    (ins : Nat → InsertOutcome) :
    ∀ (rows : List RawRow) (idx : Nat) (st st' : OrderState),
      ordersGo cmap pmap ins idx st rows = .ok st' →
      (∀ p ∈ st.order_map, p.1 < idx) →
      st'.skipped_no_customer + st'.skipped_no_product + st'.skipped_error
          + st'.order_map.length
        = st.skipped_no_customer + st.skipped_no_product + st.skipped_error
          + st.order_map.length + rows.length := by
  intro rows
  induction rows with
  | nil =>
    intro idx st st' h _
    simp only [ordersGo] at h
    cases h
    simp
  | cons row rest ih =>
    intro idx st st' h hinv
    simp only [ordersGo] at h
    cases h₀ : orderRowOutcome cmap pmap (ins idx) row with
    | error e => rw [h₀] at h; cases h
    | ok oc =>
      rw [h₀] at h
      have hinv' : ∀ q ∈ (applyOutcome st idx oc).order_map, q.1 < idx + 1 := by
        intro q hq
        rcases applyOutcome_map_cases st idx oc with hm | ⟨k, _, hm⟩
        · rw [hm] at hq
          exact Nat.lt_succ_of_lt (hinv q hq)
        · rw [hm] at hq
          rcases mem_dictInsert _ _ _ q hq with hq' | hq'
          · exact Nat.lt_succ_of_lt (hinv q hq')
          · rw [hq']
            exact Nat.lt_succ_self idx
      have hrec := ih (idx + 1) _ st' h hinv'
      have hfresh : ∀ p ∈ st.order_map, p.1 ≠ idx := fun p hp => Nat.ne_of_lt (hinv p hp)
      cases oc with
      | inserted k =>
        simp only [applyOutcome, dictInsert_length_fresh st.order_map idx k hfresh,
          List.length_cons] at hrec
        simp only [List.length_cons]
        omega
      | noCustomer =>
        simp only [applyOutcome, List.length_cons] at hrec
        simp only [List.length_cons]
        omega
      | noProduct =>
        simp only [applyOutcome, List.length_cons] at hrec
        simp only [List.length_cons]
        omega
      | insertError =>
        simp only [applyOutcome, List.length_cons] at hrec
        simp only [List.length_cons]
        omega

/-- The `processed` counter advances in lockstep with the map size. -/
theorem ordersGo_processed (cmap : List (Int × Int)) (pmap : List (String × Int))
    (ins : Nat → InsertOutcome) :
    ∀ (rows : List RawRow) (idx : Nat) (st st' : OrderState),
      ordersGo cmap pmap ins idx st rows = .ok st' →
      (∀ p ∈ st.order_map, p.1 < idx) →
      st'.processed + st.order_map.length = st.processed + st'.order_map.length := by
  intro rows
  induction rows with
  | nil =>
    intro idx st st' h _
    simp only [ordersGo] at h
    cases h
    omega
  | cons row rest ih =>
    intro idx st st' h hinv
    simp only [ordersGo] at h
    cases h₀ : orderRowOutcome cmap pmap (ins idx) row with
    | error e => rw [h₀] at h; cases h
    | ok oc =>
      rw [h₀] at h
      have hinv' : ∀ q ∈ (applyOutcome st idx oc).order_map, q.1 < idx + 1 := by
        intro q hq
        rcases applyOutcome_map_cases st idx oc with hm | ⟨k, _, hm⟩
        · rw [hm] at hq
          exact Nat.lt_succ_of_lt (hinv q hq)
        · rw [hm] at hq
          rcases mem_dictInsert _ _ _ q hq with hq' | hq'
          · exact Nat.lt_succ_of_lt (hinv q hq')
          · rw [hq']
            exact Nat.lt_succ_self idx
      have hrec := ih (idx + 1) _ st' h hinv'
      have hfresh : ∀ p ∈ st.order_map, p.1 ≠ idx := fun p hp => Nat.ne_of_lt (hinv p hp)
      cases oc with
      | inserted k =>
        simp only [applyOutcome, dictInsert_length_fresh st.order_map idx k hfresh] at hrec
        omega
      | noCustomer => simpa [applyOutcome] using hrec
      | noProduct => simpa [applyOutcome] using hrec
      | insertError => simpa [applyOutcome] using hrec

/-- A fresh-key insertion is an append. -/
theorem dictInsert_fresh_append {α β : Type} [DecidableEq α]
    (m : List (α × β)) (k : α) (v : β) (h : ∀ p ∈ m, p.1 ≠ k) :
    dictInsert m k v = m ++ [(k, v)] := by
  induction m with
  | nil => rfl
  | cons p rest ih =>
    obtain ⟨k₀, v₀⟩ := p
    have hk : k₀ ≠ k := h (k₀, v₀) (List.mem_cons_self _ _)
    simp only [dictInsert, if_neg hk, List.cons_append, List.cons.injEq, true_and]
    exact ih fun q hq => h q (List.mem_cons_of_mem _ hq)

/-- Keys of the order map stay distinct: every row holds a distinct
source position. -/
theorem ordersGo_nodup (cmap : List (Int × Int)) (pmap : List (String × Int))
    (ins : Nat → InsertOutcome) :
    ∀ (rows : List RawRow) (idx : Nat) (st st' : OrderState),
      ordersGo cmap pmap ins idx st rows = .ok st' →
      (∀ p ∈ st.order_map, p.1 < idx) →
      (st.order_map.map Prod.fst).Nodup →
      (st'.order_map.map Prod.fst).Nodup := by
  intro rows
  induction rows with
  | nil =>
    intro idx st st' h _ hnd
    simp only [ordersGo] at h
    cases h
    exact hnd
  | cons row rest ih =>
    intro idx st st' h hinv hnd
    simp only [ordersGo] at h
    cases h₀ : orderRowOutcome cmap pmap (ins idx) row with
    | error e => rw [h₀] at h; cases h
    | ok oc =>
      rw [h₀] at h
      have hinv' : ∀ q ∈ (applyOutcome st idx oc).order_map, q.1 < idx + 1 := by
        intro q hq
        rcases applyOutcome_map_cases st idx oc with hm | ⟨k, _, hm⟩
        · rw [hm] at hq
          exact Nat.lt_succ_of_lt (hinv q hq)
        · rw [hm] at hq
          rcases mem_dictInsert _ _ _ q hq with hq' | hq'
          · exact Nat.lt_succ_of_lt (hinv q hq')
          · rw [hq']
            exact Nat.lt_succ_self idx
      have hfresh : ∀ p ∈ st.order_map, p.1 ≠ idx := fun p hp => Nat.ne_of_lt (hinv p hp)
      have hnd' : ((applyOutcome st idx oc).order_map.map Prod.fst).Nodup := by
        cases oc with
        | inserted k =>
          simp only [applyOutcome, dictInsert_fresh_append st.order_map idx k hfresh,
            List.map_append, List.map_cons, List.map_nil]
          rw [List.nodup_append]
          refine ⟨hnd, List.nodup_singleton idx, ?_⟩
          intro a ha hb
          simp only [List.mem_singleton] at hb
          subst hb
          rcases List.mem_map.mp ha with ⟨p, hp, hpa⟩
          exact hfresh p hp hpa
        | noCustomer => exact hnd
        | noProduct => exact hnd
        | insertError => exact hnd
      exact ih (idx + 1) _ st' h hinv' hnd'

/-! ## Invariants of the customer loop -/

/-- The integer source ids the customer loop derives from the canonical
rows (rows whose id `int()` cannot convert are dropped by the
`except`). -/
def canonSids (canon : List CustomerCanon) : List Int :=
  canon.filterMap (fun c => pyIntCoerce c.customerId)

/-- When the canonical rows map to pairwise-distinct integer source ids,
`imported` and the key-map size advance together. -/
theorem customersGo_counter (insC : Nat → InsertOutcome) :
    ∀ (canon : List CustomerCanon) (pos : Nat) (st : CustomerState),
      (canonSids canon).Nodup →
      (∀ p ∈ st.customer_map, p.1 ∉ canonSids canon) →
      (customersGo insC pos st canon).imported + st.customer_map.length
        = st.imported + (customersGo insC pos st canon).customer_map.length := by
  intro canon
  induction canon with
  | nil =>
    intro pos st _ _
    rfl
  | cons c rest ih =>
    intro pos st hnd hinv
    simp only [customersGo]
    cases hc : pyIntCoerce c.customerId with
    | none =>
      have hsids : canonSids (c :: rest) = canonSids rest := by
        simp [canonSids, List.filterMap_cons, hc]
      rw [hsids] at hnd hinv
      have hstep : customerStep insC pos st c = st := by
        simp [customerStep, hc]
      rw [hstep]
      exact ih (pos + 1) st hnd hinv
    | some sid =>
      have hsids : canonSids (c :: rest) = sid :: canonSids rest := by
        simp [canonSids, List.filterMap_cons, hc]
      rw [hsids] at hnd hinv
      have hnd' : (canonSids rest).Nodup := hnd.of_cons
      have hsid : sid ∉ canonSids rest := (List.nodup_cons.mp hnd).1
      cases hins : insC pos with
      | err =>
        have hstep : customerStep insC pos st c = st := by
          simp [customerStep, hc, hins]
        rw [hstep]
        exact ih (pos + 1) st hnd' fun p hp =>
          fun hmem => hinv p hp (List.mem_cons_of_mem _ hmem)
      | ok k =>
        have hfresh : ∀ p ∈ st.customer_map, p.1 ≠ sid := fun p hp heq =>
          hinv p hp (heq ▸ List.mem_cons_self _ _)
        have hinv' : ∀ p ∈ dictInsert st.customer_map sid k, p.1 ∉ canonSids rest := by
          intro p hp
          rcases mem_dictInsert _ _ _ p hp with hp' | hp'
          · exact fun hmem => hinv p hp' (List.mem_cons_of_mem _ hmem)
          · rw [hp']
            exact hsid
        have hstep : customerStep insC pos st c =
            ⟨dictInsert st.customer_map sid k, st.imported + 1,
              st.records ++ [(sid, buildCustomerRecord c)]⟩ := by
          simp [customerStep, hc, hins]
        rw [hstep]
        have hrec := ih (pos + 1)
          ⟨dictInsert st.customer_map sid k, st.imported + 1,
            st.records ++ [(sid, buildCustomerRecord c)]⟩ hnd' hinv'
        simp only at hrec
        rw [dictInsert_length_fresh st.customer_map sid k hfresh] at hrec
        omega

/-! ## Invariants of the shipping loop -/

/-- Provenance, partition and skip count for the shipping loop. -/
theorem shippingGo_spec (omap : List (Nat × Int)) (insS : Nat → Bool) :
    ∀ (rows : List RawRow) (idx : Nat) (st : ShippingState),
      (∀ rec ∈ (shippingGo omap insS idx st rows).records,
        rec ∈ st.records ∨ ∃ i, idx ≤ i ∧ i < idx + rows.length ∧
          dictGet omap i = some rec.order_id ∧ rec.order_id ≠ 0) ∧
      (shippingGo omap insS idx st rows).records.length
          + (shippingGo omap insS idx st rows).skipped
        = st.records.length + st.skipped + rows.length ∧
      (shippingGo omap insS idx st rows).skipped
        = st.skipped + shipSkipCount omap insS idx rows.length := by
  intro rows
  induction rows with
  | nil =>
    intro idx st
    refine ⟨fun rec hrec => Or.inl hrec, by simp [shippingGo], by simp [shippingGo, shipSkipCount]⟩
  | cons row rest ih =>
    intro idx st
    have hcount : shipSkipCount omap insS idx (rest.length + 1)
        = (match dictGet omap idx with
           | none => 1
           | some k => if k = 0 then 1 else if insS idx then 1 else 0)
          + shipSkipCount omap insS (idx + 1) rest.length := rfl
    simp only [shippingGo, List.length_cons]
    cases hget : dictGet omap idx with
    | none =>
      have hstep : shippingStep omap insS idx st row = { st with skipped := st.skipped + 1 } := by
        simp [shippingStep, hget]
      rw [hstep, hcount, hget]
      obtain ⟨ih₁, ih₂, ih₃⟩ := ih (idx + 1) { st with skipped := st.skipped + 1 }
      refine ⟨?_, ?_, ?_⟩
      · intro rec hrec
        rcases ih₁ rec hrec with h | ⟨i, hi₁, hi₂, hi₃⟩
        · exact Or.inl h
        · exact Or.inr ⟨i, by omega, by omega, hi₃⟩
      · simp only at ih₂ ⊢
        omega
      · simp only at ih₃ ⊢
        omega
    | some k =>
      by_cases hk : k = 0
      · have hstep : shippingStep omap insS idx st row
            = { st with skipped := st.skipped + 1 } := by
          simp [shippingStep, hget, hk]
        have hcount2 : shipSkipCount omap insS idx (rest.length + 1)
            = 1 + shipSkipCount omap insS (idx + 1) rest.length := by
          rw [hcount, hget]
          simp [hk]
        rw [hstep, hcount2]
        obtain ⟨ih₁, ih₂, ih₃⟩ := ih (idx + 1) { st with skipped := st.skipped + 1 }
        refine ⟨?_, ?_, ?_⟩
        · intro rec hrec
          rcases ih₁ rec hrec with h | ⟨i, hi₁, hi₂, hi₃⟩
          · exact Or.inl h
          · exact Or.inr ⟨i, by omega, by omega, hi₃⟩
        · simp only at ih₂ ⊢
          omega
        · simp only at ih₃ ⊢
          omega
      · by_cases hins : insS idx
        · have hstep : shippingStep omap insS idx st row
              = { st with skipped := st.skipped + 1 } := by
            simp [shippingStep, hget, hk, hins]
          have hcount2 : shipSkipCount omap insS idx (rest.length + 1)
              = 1 + shipSkipCount omap insS (idx + 1) rest.length := by
            rw [hcount, hget]
            simp [hk, hins]
          rw [hstep, hcount2]
          obtain ⟨ih₁, ih₂, ih₃⟩ := ih (idx + 1) { st with skipped := st.skipped + 1 }
          refine ⟨?_, ?_, ?_⟩
          · intro rec hrec
            rcases ih₁ rec hrec with h | ⟨i, hi₁, hi₂, hi₃⟩
            · exact Or.inl h
            · exact Or.inr ⟨i, by omega, by omega, hi₃⟩
          · simp only at ih₂ ⊢
            omega
          · simp only at ih₃ ⊢
            omega
        · have hstep : shippingStep omap insS idx st row
              = { st with records := st.records ++ [mkShippingRecord k row]
                          processed := st.processed + 1 } := by
            simp [shippingStep, hget, hk, hins]
          have hcount2 : shipSkipCount omap insS idx (rest.length + 1)
              = shipSkipCount omap insS (idx + 1) rest.length := by
            rw [hcount, hget]
            simp [hk, hins]
          rw [hstep, hcount2]
          obtain ⟨ih₁, ih₂, ih₃⟩ := ih (idx + 1)
            { st with records := st.records ++ [mkShippingRecord k row]
                      processed := st.processed + 1 }
          refine ⟨?_, ?_, ?_⟩
          · intro rec hrec
            rcases ih₁ rec hrec with h | ⟨i, hi₁, hi₂, hi₃⟩
            · simp only [List.mem_append, List.mem_singleton] at h
              rcases h with h | h
              · exact Or.inl h
              · refine Or.inr ⟨idx, Nat.le_refl idx, by omega, ?_, ?_⟩
                · rw [h]
                  exact hget
                · rw [h]
                  exact hk
            · exact Or.inr ⟨i, by omega, by omega, hi₃⟩
          · simp only [List.length_append, List.length_singleton] at ih₂ ⊢
            omega
          · simp only at ih₃ ⊢
            omega

/-! ## Membership facts for dedup and the product map -/

theorem mem_firstOccAux {α : Type} [DecidableEq α] :
    ∀ (l : List α) (seen : List α) (x : α), x ∈ firstOccAux seen l → x ∈ l := by
  intro l
  induction l with
  | nil => intro seen x hx; simp [firstOccAux] at hx
  | cons v vs ih =>
    intro seen x hx
    simp only [firstOccAux] at hx
    by_cases hv : v ∈ seen
    · rw [if_pos hv] at hx
      exact List.mem_cons_of_mem _ (ih seen x hx)
    · rw [if_neg hv] at hx
      rcases List.mem_cons.mp hx with h | h
      · rw [h]
        exact List.mem_cons_self _ _
      · exact List.mem_cons_of_mem _ (ih (v :: seen) x h)

/-- Every key of the final product map is one of the canonical names. -/
theorem productsGo_keys (insP : Nat → InsertOutcome) :
    ∀ (names : List String) (pos : Nat) (st : ProductState),
      ∀ p ∈ (productsGo insP pos st names).product_map,
        p ∈ st.product_map ∨ p.1 ∈ names := by
  intro names
  induction names with
  | nil => intro pos st p hp; exact Or.inl hp
  | cons n rest ih =>
    intro pos st p hp
    simp only [productsGo, productStep] at hp
    cases hins : insP pos with
    | err =>
      rw [hins] at hp
      rcases ih (pos + 1) st p hp with h | h
      · exact Or.inl h
      · exact Or.inr (List.mem_cons_of_mem _ h)
    | ok k =>
      rw [hins] at hp
      rcases ih (pos + 1) _ p hp with h | h
      · rcases mem_dictInsert _ _ _ p h with h' | h'
        · exact Or.inl h'
        · rw [h']
          exact Or.inr (List.mem_cons_self _ _)
      · exact Or.inr (List.mem_cons_of_mem _ h)

/-- Canonical product names pass the blank/placeholder filter. -/
theorem productNames_good (rows : List RawRow) :
    ∀ n ∈ productNames rows, n ≠ "" ∧ n ≠ "nan" := by
  intro n hn
  have hmem := mem_firstOccAux _ _ _ hn
  have hpred := List.of_mem_filter hmem
  simp only [Bool.and_eq_true, Bool.not_eq_true'] at hpred
  obtain ⟨h₁, h₂⟩ := hpred
  constructor
  · intro h
    rw [h] at h₂
    simp at h₂
  · intro h
    rw [h] at h₁
    simp at h₁

/-- `firstNonAbsent` picks the earliest non-absent value. -/
theorem firstNonAbsent_eq_find (l : List RawValue) :
    firstNonAbsent l = ((l.find? (fun v => !pdIsna v)).getD .absent) := by
  induction l with
  | nil => rfl
  | cons v vs ih =>
    simp only [firstNonAbsent, List.find?_cons]
    cases hv : pdIsna v with
    | true => simpa [hv] using ih
    | false => simp [hv]

/-- Every row of a customer group carries the group key and a non-absent
id. -/
theorem customerGroup_key (rows : List RawRow) (k : RawValue) :
    ∀ r ∈ customerGroup rows k, pdIsna r.customerId = false ∧ r.customerId = k := by
  intro r hr
  have hpred := List.of_mem_filter hr
  simp only [Bool.and_eq_true, Bool.not_eq_true', decide_eq_true_eq] at hpred
  exact hpred

/-- Every groupby key labels a nonempty group. -/
theorem customerKeys_group_ne_nil (rows : List RawRow) (k : RawValue)
    (hk : k ∈ customerKeys rows) : customerGroup rows k ≠ [] := by
  have hmem := mem_firstOccAux _ _ _ hk
  rcases List.mem_map.mp hmem with ⟨r, hr, hrk⟩
  have hr' := List.of_mem_filter hr
  simp only [Bool.not_eq_true'] at hr'
  have hrrows := List.mem_of_mem_filter hr
  have : r ∈ customerGroup rows k := by
    apply List.mem_filter.mpr
    refine ⟨hrrows, ?_⟩
    simp only [Bool.and_eq_true, Bool.not_eq_true', decide_eq_true_eq]
    exact ⟨hr', hrk⟩
  intro hnil
  rw [hnil] at this
  exact absurd this (List.not_mem_nil r)

/-! ## Concrete inputs used to instantiate the claim theorems -/

/-- Row `(CustomerId=1, ProductName="Widget")` from the spec's example. -/
def exRowA : RawRow := { customerId := .intV 1, productName := .str "Widget" }

/-- Row `(CustomerId=2, ProductName="Widget")` from the spec's example. -/
def exRowB : RawRow := { customerId := .intV 2, productName := .str "Widget" }

/-- The spec's example customer map `{1: 101}`. -/
def exCmap : List (Int × Int) := [(1, 101)]

/-- The spec's example product map `{"Widget": 501}`. -/
def exPmap : List (String × Int) := [("Widget", 501)]

/-- A sink that always succeeds with key 601. -/
def exIns : Nat → InsertOutcome := fun _ => .ok 601

/-- The order-phase outcome on the example: one order at position 0, the
second row skipped for its missing customer. -/
def exOrderSt : OrderState := ⟨[(0, 601)], 1, 1, 0, 0⟩

/-- A customer row with id 7 and no email value (the column exists; the
cell is `NaN`). -/
def exNoEmailRow : RawRow := { customerId := .intV 7 }

/-- A row whose `Customer Id` is the float `1.2`. -/
def exFloatIdA : RawRow := { customerId := .ratV (6 / 5) }

/-- A row whose `Customer Id` is the float `1.9`: a distinct groupby key
that `int()` also truncates to source id 1. -/
def exFloatIdB : RawRow := { customerId := .ratV (19 / 10) }

/-- A sink returning a distinct key on each call. -/
def exInsSeq : Nat → InsertOutcome := fun p => .ok (101 + (p : Int))

/-! ## Claim theorems -/

set_option maxRecDepth 8000 in
/-- C7: the coercion layer is NOT exception-free.  The five spec
examples do behave as claimed — `clean_numeric("3.14") = 3.14`,
`clean_numeric("") = clean_numeric(None) = None`,
`clean_int("5.0") = 5`, `clean_int("abc") = None` — but
`clean_int("1e400")` computes `int(float("1e400")) = int(inf)`, whose
`OverflowError` is neither a `ValueError` nor a `TypeError` and so
escapes the `except` clause of `clean_int` (same for `"inf"`), while
`clean_numeric("1e400")` returns the float `inf`, not `None`. -/
theorem coercion_overflow_escapes :
    clean_int (.str "1e400") = .overflowError ∧
    clean_int (.str "inf") = .overflowError ∧
    clean_numeric (.str "1e400") = .val (some .inf) ∧
    clean_numeric (.str "3.14") = .val (some (.finite (157 / 50))) ∧
    clean_numeric (.str "") = .val none ∧
    clean_numeric .absent = .val none ∧
    clean_int (.str "5.0") = .val (some 5) ∧
    clean_int (.str "abc") = .val none ∧
    clean_int (.str "nan") = .val none :=
  ⟨by decide, by decide, by decide, by decide, by decide, by decide, by decide,
    by decide, by decide⟩

/-- C3: when the order pass completes, the three skip tallies and the
key-map size partition the source rows exactly. -/
theorem orders_skip_tally_partition (rows : List RawRow) (cmap : List (Int × Int))
    (pmap : List (String × Int)) (ins : Nat → InsertOutcome) (st : OrderState)
    (h : import_orders rows cmap pmap ins = .ok st) :
    st.skipped_no_customer + st.skipped_no_product + st.skipped_error + st.order_map.length
      = rows.length := by
  have hsum := ordersGo_sum cmap pmap ins rows 0 ⟨[], 0, 0, 0, 0⟩ st h
    (by intro p hp; simp at hp)
  simpa using hsum

theorem orders_skip_tally_partition_witness :
    import_orders [exRowA, exRowB] exCmap exPmap exIns = .ok exOrderSt ∧
    exOrderSt.skipped_no_customer + exOrderSt.skipped_no_product + exOrderSt.skipped_error
        + exOrderSt.order_map.length
      = ([exRowA, exRowB] : List RawRow).length :=
  ⟨by rfl, orders_skip_tally_partition [exRowA, exRowB] exCmap exPmap exIns exOrderSt (by rfl)⟩

/-- C9 (amended): the success counter is incremented exactly when a
key-map assignment is performed, so the reported count equals the map
size whenever those assignments hit pairwise-distinct keys — always true
for orders (keys are distinct source positions), and true for customers
exactly when the canonical rows' integer source ids are pairwise
distinct; canonical groups whose float keys truncate to the same `int`
id overwrite one entry while counting twice. -/
theorem imported_counter_matches_map (rows : List RawRow) (cmap : List (Int × Int))
    (pmap : List (String × Int)) (ins : Nat → InsertOutcome) (st : OrderState)
    (insC : Nat → InsertOutcome)
    (h : import_orders rows cmap pmap ins = .ok st)
    (hnd : (canonSids (canonicalCustomers rows)).Nodup) :
    st.processed = st.order_map.length ∧
    (import_customers rows insC).imported = (import_customers rows insC).customer_map.length := by
  constructor
  · have hp := ordersGo_processed cmap pmap ins rows 0 ⟨[], 0, 0, 0, 0⟩ st h
      (by intro p hp; simp at hp)
    simpa using hp
  · have hc := customersGo_counter insC (canonicalCustomers rows) 0 ⟨[], 0, []⟩ hnd
      (by intro p hp; simp at hp)
    simpa [import_customers] using hc

theorem imported_counter_matches_map_witness :
    (import_orders [exRowA, exRowB] exCmap exPmap exIns = .ok exOrderSt ∧
      (canonSids (canonicalCustomers [exRowA, exRowB])).Nodup) ∧
    (exOrderSt.processed = exOrderSt.order_map.length ∧
      (import_customers [exRowA, exRowB] exInsSeq).imported
        = (import_customers [exRowA, exRowB] exInsSeq).customer_map.length) :=
  ⟨⟨by rfl, by decide⟩,
    imported_counter_matches_map [exRowA, exRowB] exCmap exPmap exIns exOrderSt exInsSeq
      (by rfl) (by decide)⟩

/-- C9 counterexample: two rows whose float `Customer Id`s 1.2 and 1.9
form two distinct canonical groups that both truncate to source id 1;
with every insert succeeding the counter reaches 2 while the key map
holds a single entry, so the reported imported count differs from the
map size. -/
theorem imported_counter_map_cex :
    (import_customers [exFloatIdA, exFloatIdB] exInsSeq).imported = 2 ∧
    (import_customers [exFloatIdA, exFloatIdB] exInsSeq).customer_map.length = 1 ∧
    (import_customers [exFloatIdA, exFloatIdB] exInsSeq).imported
      ≠ (import_customers [exFloatIdA, exFloatIdB] exInsSeq).customer_map.length := by
  refine ⟨by decide, by decide, by decide⟩

/-- C8: a canonical customer whose email cell is absent is materialized
with the literal string "nan" — `str()` of the absence marker — not with
the id-derived placeholder the spec requires; the placeholder default of
`row.get` is reachable only when the email column is missing from the
CSV altogether. -/
theorem customer_email_absent_materializes_nan :
    ((import_customers [exNoEmailRow] (fun _ => .ok 101)).records.map
        (fun p => (p.1, p.2.email))) = [(7, "nan")] ∧
    "nan" ≠ "customer_7@placeholder.com" :=
  ⟨by decide, by decide⟩

/-- A lookup is truthy exactly when the key is present and maps to a
nonzero generated key. -/
theorem isFalsy_optGet_false_iff {α : Type} [DecidableEq α]
    (m : List (α × Int)) (o : Option α) :
    isFalsy (optGet m o) = false ↔ ∃ a k, o = some a ∧ dictGet m a = some k ∧ k ≠ 0 := by
  cases o with
  | none => simp [optGet, isFalsy]
  | some a =>
    simp only [optGet]
    cases h : dictGet m a with
    | none => simp [isFalsy, h]
    | some k => simp [isFalsy, h]

/-- A row ends in the key map exactly when its customer resolves to a
truthy key, its product resolves to a truthy key, and the insert
returns a key. -/
theorem orderRowOutcome_inserted_iff (cmap : List (Int × Int))
    (pmap : List (String × Int)) (ins : InsertOutcome) (row : RawRow) :
    (∃ k, orderRowOutcome cmap pmap ins row = .ok (.inserted k)) ↔
      ((∃ sid ck, sourceCustomerId row = .ok (some sid) ∧
          dictGet cmap sid = some ck ∧ ck ≠ 0) ∧
       (∃ nm pk, orderProductName row = some nm ∧
          dictGet pmap nm = some pk ∧ pk ≠ 0) ∧
       (∃ k, ins = .ok k)) := by
  cases hsc : sourceCustomerId row with
  | error e => simp [orderRowOutcome, hsc]
  | ok sid =>
    simp only [orderRowOutcome, hsc]
    by_cases hcf : isFalsy (optGet cmap sid) = true
    · simp only [hcf, if_true]
      constructor
      · intro ⟨k, hk⟩
        exact absurd (Except.ok.inj hk) (by intro h; cases h)
      · intro ⟨⟨sid', ck, hse, hg, hne⟩, _, _⟩
        exfalso
        injection hse with hsid
        rw [hsid] at hcf
        simp [optGet, isFalsy, hg] at hcf
        exact hne hcf
    · have hcf' : isFalsy (optGet cmap sid) = false := by
        cases h' : isFalsy (optGet cmap sid)
        · rfl
        · exact absurd h' hcf
      have hcust := (isFalsy_optGet_false_iff cmap sid).mp hcf'
      rcases hcust with ⟨sid', ck, hse, hg, hne⟩
      simp only [hcf', Bool.false_eq_true, if_false]
      by_cases hpf : isFalsy (optGet pmap (orderProductName row)) = true
      · simp only [hpf, if_true]
        constructor
        · intro ⟨k, hk⟩
          exact absurd (Except.ok.inj hk) (by intro h; cases h)
        · intro ⟨_, ⟨nm, pk, hpn, hpg, hpne⟩, _⟩
          exfalso
          rw [hpn] at hpf
          simp [optGet, isFalsy, hpg] at hpf
          exact hpne hpf
      · have hpf' : isFalsy (optGet pmap (orderProductName row)) = false := by
          cases h' : isFalsy (optGet pmap (orderProductName row))
          · rfl
          · exact absurd h' hpf
        have hprod := (isFalsy_optGet_false_iff pmap (orderProductName row)).mp hpf'
        rcases hprod with ⟨nm, pk, hpn, hpg, hpne⟩
        simp only [hpf', Bool.false_eq_true, if_false]
        cases ins with
        | err =>
          constructor
          · intro ⟨k, hk⟩
            exact absurd (Except.ok.inj hk) (by intro h; cases h)
          · intro ⟨_, _, ⟨k, hk⟩⟩
            cases hk
        | ok k =>
          constructor
          · intro _
            exact ⟨⟨sid', ck, hse ▸ rfl, hg, hne⟩, ⟨nm, pk, hpn, hpg, hpne⟩, ⟨k, rfl⟩⟩
          · intro _
            exact ⟨k, rfl⟩

/-- C1: when the order pass completes, a source position is present in
the key map — with exactly one entry, keys being distinct positions —
if and only if the row's `Customer Id` resolves to a truthy key, its
trimmed product name resolves to a truthy key, and the insert returns a
generated key. -/
theorem orders_presence_iff (rows : List RawRow) (cmap : List (Int × Int))
    (pmap : List (String × Int)) (ins : Nat → InsertOutcome) (st : OrderState)
    (h : import_orders rows cmap pmap ins = .ok st) :
    (st.order_map.map Prod.fst).Nodup ∧
    ∀ i (hi : i < rows.length),
      (dictGet st.order_map i).isSome = true ↔
        ((∃ sid ck, sourceCustomerId (rows.get ⟨i, hi⟩) = .ok (some sid) ∧
            dictGet cmap sid = some ck ∧ ck ≠ 0) ∧
         (∃ nm pk, orderProductName (rows.get ⟨i, hi⟩) = some nm ∧
            dictGet pmap nm = some pk ∧ pk ≠ 0) ∧
         (∃ k, ins i = .ok k)) := by
  constructor
  · exact ordersGo_nodup cmap pmap ins rows 0 _ st h (by intro p hp; simp at hp) (by simp)
  · intro i hi
    have hget := ordersGo_get_at cmap pmap ins rows 0 _ st h (by intro p hp; simp at hp) i hi
    simp only [Nat.zero_add] at hget
    rw [hget, ← orderRowOutcome_inserted_iff cmap pmap (ins i) (rows.get ⟨i, hi⟩)]
    cases ho : orderRowOutcome cmap pmap (ins i) (rows.get ⟨i, hi⟩) with
    | error e => simp
    | ok oc => cases oc <;> simp

theorem orders_presence_iff_witness :
    import_orders [exRowA, exRowB] exCmap exPmap exIns = .ok exOrderSt ∧
    ((exOrderSt.order_map.map Prod.fst).Nodup ∧
      ∀ i (hi : i < ([exRowA, exRowB] : List RawRow).length),
        (dictGet exOrderSt.order_map i).isSome = true ↔
          ((∃ sid ck, sourceCustomerId (([exRowA, exRowB] : List RawRow).get ⟨i, hi⟩)
                = .ok (some sid) ∧ dictGet exCmap sid = some ck ∧ ck ≠ 0) ∧
           (∃ nm pk, orderProductName (([exRowA, exRowB] : List RawRow).get ⟨i, hi⟩)
                = some nm ∧ dictGet exPmap nm = some pk ∧ pk ≠ 0) ∧
           (∃ k, exIns i = .ok k))) :=
  ⟨by rfl, orders_presence_iff [exRowA, exRowB] exCmap exPmap exIns exOrderSt (by rfl)⟩

/-- C4: a row whose customer lookup is falsy is tallied under
`no_customer` and classified identically for every product map — the
product lookup cannot influence it — and only rows whose customer
resolves are classified by product resolution, falling under
`no_product` when that fails; the `no_customer` outcome bumps only the
`no_customer` tally. -/
theorem orders_customer_check_precedes_product (cmap : List (Int × Int))
    (pmap pmap' : List (String × Int)) (ins : InsertOutcome) (row : RawRow)
    (sid : Option Int) (hs : sourceCustomerId row = .ok sid) :
    (isFalsy (optGet cmap sid) = true →
      orderRowOutcome cmap pmap ins row = .ok .noCustomer ∧
      orderRowOutcome cmap pmap ins row = orderRowOutcome cmap pmap' ins row) ∧
    (isFalsy (optGet cmap sid) = false →
      isFalsy (optGet pmap (orderProductName row)) = true →
      orderRowOutcome cmap pmap ins row = .ok .noProduct) ∧
    (∀ st idx, applyOutcome st idx .noCustomer
        = { st with skipped_no_customer := st.skipped_no_customer + 1 }) := by
  refine ⟨?_, ?_, fun st idx => rfl⟩
  · intro hcf
    constructor
    · simp [orderRowOutcome, hs, hcf]
    · simp [orderRowOutcome, hs, hcf]
  · intro hcf hpf
    simp [orderRowOutcome, hs, hcf, hpf]

theorem orders_customer_check_precedes_product_witness :
    sourceCustomerId exRowB = .ok (some 2) ∧
    ((isFalsy (optGet exCmap (some 2)) = true →
        orderRowOutcome exCmap exPmap (.ok 601) exRowB = .ok .noCustomer ∧
        orderRowOutcome exCmap exPmap (.ok 601) exRowB
          = orderRowOutcome exCmap [] (.ok 601) exRowB) ∧
      (isFalsy (optGet exCmap (some 2)) = false →
        isFalsy (optGet exPmap (orderProductName exRowB)) = true →
        orderRowOutcome exCmap exPmap (.ok 601) exRowB = .ok .noProduct) ∧
      (∀ st idx, applyOutcome st idx .noCustomer
          = { st with skipped_no_customer := st.skipped_no_customer + 1 })) :=
  ⟨by rfl, orders_customer_check_precedes_product exCmap exPmap [] (.ok 601) exRowB
    (some 2) (by rfl)⟩

/-- C10: resolution success is truthiness, not presence — a customer or
product entry whose generated key is 0, and an order-map entry whose
generated key is 0, are all treated exactly as missing: the row is
tallied under the corresponding missing-entity reason. -/
theorem truthiness_zero_key_treated_missing (cmap : List (Int × Int))
    (pmap : List (String × Int)) (ins : InsertOutcome) (row : RawRow)
    (omap : List (Nat × Int)) (insS : Nat → Bool) (idx : Nat) (st : ShippingState) :
    (∀ sid, sourceCustomerId row = .ok (some sid) → dictGet cmap sid = some 0 →
      orderRowOutcome cmap pmap ins row = .ok .noCustomer) ∧
    (∀ sid nm, sourceCustomerId row = .ok sid → isFalsy (optGet cmap sid) = false →
      orderProductName row = some nm → dictGet pmap nm = some 0 →
      orderRowOutcome cmap pmap ins row = .ok .noProduct) ∧
    (dictGet omap idx = some 0 →
      shippingStep omap insS idx st row = { st with skipped := st.skipped + 1 }) := by
  refine ⟨?_, ?_, ?_⟩
  · intro sid hs hg
    have hcf : isFalsy (optGet cmap (some sid)) = true := by simp [optGet, isFalsy, hg]
    simp [orderRowOutcome, hs, hcf]
  · intro sid nm hs hcf hpn hg
    have hpf : isFalsy (optGet pmap (orderProductName row)) = true := by
      simp [optGet, isFalsy, hpn, hg]
    simp [orderRowOutcome, hs, hcf, hpf]
  · intro hg
    simp [shippingStep, hg]

theorem truthiness_zero_key_treated_missing_witness :
    orderRowOutcome [(2, 0)] exPmap (.ok 601) exRowB = .ok .noCustomer ∧
    orderRowOutcome exCmap [("Widget", 0)] (.ok 601) exRowA = .ok .noProduct ∧
    shippingStep [(0, 0)] (fun _ => false) 0 ⟨[], 0, 0⟩ exRowA = ⟨[], 0, 0 + 1⟩ := by
  refine ⟨?_, ?_, ?_⟩
  · exact (truthiness_zero_key_treated_missing [(2, 0)] exPmap (.ok 601) exRowB
      [] (fun _ => false) 0 ⟨[], 0, 0⟩).1 2 (by rfl) (by rfl)
  · exact (truthiness_zero_key_treated_missing exCmap [("Widget", 0)] (.ok 601) exRowA
      [] (fun _ => false) 0 ⟨[], 0, 0⟩).2.1 (some 1) "Widget" (by rfl) (by decide)
      (by rfl) (by rfl)
  · exact (truthiness_zero_key_treated_missing [] [] (.ok 601) exRowA
      [(0, 0)] (fun _ => false) 0 ⟨[], 0, 0⟩).2.2 (by rfl)

/-- A product row whose name strips to the textual placeholder. -/
def exBadProdRow : RawRow := { productName := .str " nan " }

/-- C5: blank, absent or placeholder product names never enter the
canonical product map, and such names — or an absent name, which yields
no lookup key at all — can never resolve in it. -/
theorem products_no_blank_or_placeholder (rows : List RawRow) (insP : Nat → InsertOutcome) :
    (∀ p ∈ (import_products rows insP).product_map, p.1 ≠ "" ∧ p.1 ≠ "nan") ∧
    (∀ row : RawRow, orderProductName row = none →
      optGet (import_products rows insP).product_map (orderProductName row) = none) ∧
    (∀ row : RawRow, ∀ nm, orderProductName row = some nm → (nm = "" ∨ nm = "nan") →
      optGet (import_products rows insP).product_map (orderProductName row) = none) := by
  have hkeys : ∀ p ∈ (import_products rows insP).product_map, p.1 ≠ "" ∧ p.1 ≠ "nan" := by
    intro p hp
    rcases productsGo_keys insP (productNames rows) 0 ⟨[], 0⟩ p hp with h | h
    · simp at h
    · exact productNames_good rows p.1 h
  refine ⟨hkeys, ?_, ?_⟩
  · intro row hnone
    rw [hnone]
    rfl
  · intro row nm hnm hbad
    rw [hnm]
    simp only [optGet]
    apply dictGet_eq_none
    intro p hp
    rcases hkeys p hp with ⟨h1, h2⟩
    rcases hbad with hb | hb
    · rw [hb]
      exact h1
    · rw [hb]
      exact h2

theorem products_no_blank_or_placeholder_witness :
    orderProductName exBadProdRow = some "nan" ∧
    optGet (import_products [exRowA, exBadProdRow] exInsSeq).product_map
        (orderProductName exBadProdRow) = none :=
  ⟨by decide,
    (products_no_blank_or_placeholder [exRowA, exBadProdRow] exInsSeq).2.2 exBadProdRow
      "nan" (by decide) (Or.inr rfl)⟩

/-- C6: every inserted shipping record references the truthy order key
stored for some source position; each source position yields either one
record or one bump of the skip counter, which counts exactly the
positions whose order key is missing or falsy plus those whose insert
raises. -/
theorem shipping_attaches_only_existing_orders (rows : List RawRow)
    (omap : List (Nat × Int)) (insS : Nat → Bool) :
    (∀ rec ∈ (import_shipping rows omap insS).records,
      ∃ i, i < rows.length ∧ dictGet omap i = some rec.order_id ∧ rec.order_id ≠ 0) ∧
    (import_shipping rows omap insS).records.length
        + (import_shipping rows omap insS).skipped = rows.length ∧
    (import_shipping rows omap insS).skipped = shipSkipCount omap insS 0 rows.length := by
  obtain ⟨h1, h2, h3⟩ := shippingGo_spec omap insS rows 0 ⟨[], 0, 0⟩
  refine ⟨?_, by simpa using h2, by simpa using h3⟩
  intro rec hrec
  rcases h1 rec hrec with h | ⟨i, _, hi2, hi3⟩
  · simp at h
  · exact ⟨i, by simpa using hi2, hi3⟩

theorem shipping_attaches_only_existing_orders_witness :
    (mkShippingRecord 9 exRowB) ∈
        (import_shipping [exRowA, exRowB] [(0, 0), (1, 9)] (fun _ => false)).records ∧
    (∃ i, i < ([exRowA, exRowB] : List RawRow).length ∧
      dictGet [(0, 0), (1, 9)] i = some (mkShippingRecord 9 exRowB).order_id ∧
      (mkShippingRecord 9 exRowB).order_id ≠ 0) ∧
    (import_shipping [exRowA, exRowB] [(0, 0), (1, 9)] (fun _ => false)).skipped
      = shipSkipCount [(0, 0), (1, 9)] (fun _ => false) 0
          ([exRowA, exRowB] : List RawRow).length :=
  ⟨by decide,
    (shipping_attaches_only_existing_orders [exRowA, exRowB] [(0, 0), (1, 9)]
        (fun _ => false)).1 (mkShippingRecord 9 exRowB) (by decide),
    (shipping_attaches_only_existing_orders [exRowA, exRowB] [(0, 0), (1, 9)]
        (fun _ => false)).2.2⟩

/-- First-encountered duplicate row: id 1, email absent, first name "A". -/
def exDupA : RawRow := { customerId := .intV 1, customerFname := .str "A" }

/-- Later duplicate row: id 1, email "x@y", first name "B". -/
def exDupB : RawRow :=
  { customerId := .intV 1, customerEmail := .str "x@y", customerFname := .str "B" }

/-- C2 counterexample: with a first row whose email cell is absent and a
later duplicate carrying an email, the canonical customer is NOT the
first row taken whole — its email is pulled from the later duplicate
(pandas `groupby.first()` takes the first non-null value per column),
while its first name still comes from the first row. -/
theorem customer_dedup_first_row_whole_cex :
    canonicalCustomers [exDupA, exDupB] ≠ [specCanonOfRow exDupA] ∧
    (canonicalCustomers [exDupA, exDupB]).map (·.customerEmail) = [.str "x@y"] ∧
    (canonicalCustomers [exDupA, exDupB]).map (·.customerFname) = [.str "A"] ∧
    exDupA.customerEmail = .absent :=
  ⟨by decide, by decide, by decide, by decide⟩

/-- All customer payload cells of a row are non-absent. -/
def customerFieldsPresent (r : RawRow) : Bool :=
  !pdIsna r.customerEmail && !pdIsna r.customerFname && !pdIsna r.customerLname &&
  !pdIsna r.customerSegment && !pdIsna r.customerCity && !pdIsna r.customerState &&
  !pdIsna r.customerCountry && !pdIsna r.customerZipcode && !pdIsna r.customerStreet &&
  !pdIsna r.latitude && !pdIsna r.longitude

/-- C2 (amended): for each `Customer Id` the canonical customer is
assembled field by field — every column takes the value of the earliest
row in the group whose cell for that column is non-absent (later
duplicates are consulted for cells the earlier rows left absent); it
coincides with the first-encountered row taken whole exactly when that
row has no absent customer cells. -/
theorem customer_dedup_fieldwise_first (rows : List RawRow) (k : RawValue)
    (hk : k ∈ customerKeys rows) :
    ∃ r rest, customerGroup rows k = r :: rest ∧ r.customerId = k ∧
      canonOf k (r :: rest) ∈ canonicalCustomers rows ∧
      (canonOf k (r :: rest)).customerEmail
        = (((r :: rest).map (·.customerEmail)).find? (fun v => !pdIsna v)).getD .absent ∧
      (canonOf k (r :: rest)).customerFname
        = (((r :: rest).map (·.customerFname)).find? (fun v => !pdIsna v)).getD .absent ∧
      (canonOf k (r :: rest)).customerLname
        = (((r :: rest).map (·.customerLname)).find? (fun v => !pdIsna v)).getD .absent ∧
      (canonOf k (r :: rest)).customerSegment
        = (((r :: rest).map (·.customerSegment)).find? (fun v => !pdIsna v)).getD .absent ∧
      (canonOf k (r :: rest)).customerCity
        = (((r :: rest).map (·.customerCity)).find? (fun v => !pdIsna v)).getD .absent ∧
      (canonOf k (r :: rest)).customerState
        = (((r :: rest).map (·.customerState)).find? (fun v => !pdIsna v)).getD .absent ∧
      (canonOf k (r :: rest)).customerCountry
        = (((r :: rest).map (·.customerCountry)).find? (fun v => !pdIsna v)).getD .absent ∧
      (canonOf k (r :: rest)).customerZipcode
        = (((r :: rest).map (·.customerZipcode)).find? (fun v => !pdIsna v)).getD .absent ∧
      (canonOf k (r :: rest)).customerStreet
        = (((r :: rest).map (·.customerStreet)).find? (fun v => !pdIsna v)).getD .absent ∧
      (canonOf k (r :: rest)).latitude
        = (((r :: rest).map (·.latitude)).find? (fun v => !pdIsna v)).getD .absent ∧
      (canonOf k (r :: rest)).longitude
        = (((r :: rest).map (·.longitude)).find? (fun v => !pdIsna v)).getD .absent ∧
      (customerFieldsPresent r = true → canonOf k (r :: rest) = specCanonOfRow r) := by
  have hne := customerKeys_group_ne_nil rows k hk
  cases hg : customerGroup rows k with
  | nil => exact absurd hg hne
  | cons r rest =>
    have hrmem : r ∈ customerGroup rows k := by
      rw [hg]
      exact List.mem_cons_self r rest
    have hrk : r.customerId = k := (customerGroup_key rows k r hrmem).2
    refine ⟨r, rest, rfl, hrk, ?_, firstNonAbsent_eq_find _, firstNonAbsent_eq_find _,
      firstNonAbsent_eq_find _, firstNonAbsent_eq_find _, firstNonAbsent_eq_find _,
      firstNonAbsent_eq_find _, firstNonAbsent_eq_find _, firstNonAbsent_eq_find _,
      firstNonAbsent_eq_find _, firstNonAbsent_eq_find _, firstNonAbsent_eq_find _, ?_⟩
    · apply List.mem_map.mpr
      exact ⟨k, hk, by rw [hg]⟩
    · intro hall
      simp only [customerFieldsPresent, Bool.and_eq_true, Bool.not_eq_true'] at hall
      obtain ⟨⟨⟨⟨⟨⟨⟨⟨⟨⟨he, hf⟩, hl⟩, hs⟩, hc⟩, hst⟩, hco⟩, hz⟩, hstr⟩, hla⟩, hlo⟩ := hall
      simp [canonOf, specCanonOfRow, firstNonAbsent, he, hf, hl, hs, hc, hst, hco, hz,
        hstr, hla, hlo, hrk]

theorem customer_dedup_fieldwise_first_witness :
    ((.intV 1 : RawValue) ∈ customerKeys [exDupA, exDupB]) ∧
    (∃ r rest, customerGroup [exDupA, exDupB] (.intV 1) = r :: rest ∧
      r.customerId = .intV 1 ∧
      canonOf (.intV 1) (r :: rest) ∈ canonicalCustomers [exDupA, exDupB] ∧
      (canonOf (.intV 1) (r :: rest)).customerEmail
        = (((r :: rest).map (·.customerEmail)).find? (fun v => !pdIsna v)).getD .absent ∧
      (canonOf (.intV 1) (r :: rest)).customerFname
        = (((r :: rest).map (·.customerFname)).find? (fun v => !pdIsna v)).getD .absent ∧
      (canonOf (.intV 1) (r :: rest)).customerLname
        = (((r :: rest).map (·.customerLname)).find? (fun v => !pdIsna v)).getD .absent ∧
      (canonOf (.intV 1) (r :: rest)).customerSegment
        = (((r :: rest).map (·.customerSegment)).find? (fun v => !pdIsna v)).getD .absent ∧
      (canonOf (.intV 1) (r :: rest)).customerCity
        = (((r :: rest).map (·.customerCity)).find? (fun v => !pdIsna v)).getD .absent ∧
      (canonOf (.intV 1) (r :: rest)).customerState
        = (((r :: rest).map (·.customerState)).find? (fun v => !pdIsna v)).getD .absent ∧
      (canonOf (.intV 1) (r :: rest)).customerCountry
        = (((r :: rest).map (·.customerCountry)).find? (fun v => !pdIsna v)).getD .absent ∧
      (canonOf (.intV 1) (r :: rest)).customerZipcode
        = (((r :: rest).map (·.customerZipcode)).find? (fun v => !pdIsna v)).getD .absent ∧
      (canonOf (.intV 1) (r :: rest)).customerStreet
        = (((r :: rest).map (·.customerStreet)).find? (fun v => !pdIsna v)).getD .absent ∧
      (canonOf (.intV 1) (r :: rest)).latitude
        = (((r :: rest).map (·.latitude)).find? (fun v => !pdIsna v)).getD .absent ∧
      (canonOf (.intV 1) (r :: rest)).longitude
        = (((r :: rest).map (·.longitude)).find? (fun v => !pdIsna v)).getD .absent ∧
      (customerFieldsPresent r = true → canonOf (.intV 1) (r :: rest) = specCanonOfRow r)) :=
  ⟨by decide, customer_dedup_fieldwise_first [exDupA, exDupB] (.intV 1) (by decide)⟩

end SupplyChain
